import Mathlib

/-!
# Verification of the SWG-AI proxy addon (`src/swg-ai/SWG-AI.py`)

A shallow embedding of the traffic-classification and policy-enforcement
engine of the `URLCategorizer` mitmproxy addon, together with theorems
settling the specification claims about it.

Modelling conventions:
* Python strings are Lean `String`s; `str.strip()` is modelled on the ASCII
  whitespace characters recognised by `Char.isWhitespace`, and `str.lower()`
  on the basic-latin range of `Char.toLower` (all inputs of interest are
  ASCII).
* Python dicts (the JSON objects persisted in `categories.json` and
  `domain_cache.json`) are association lists with insertion-order append,
  looked up by first match.
* Files on disk are values of `JsonFile`: `missing`, `corrupt`
  (undecodable JSON), or `ok` with the parsed object.  The category-file
  write path of `request` always writes a decodable object, so a write is
  modelled as replacing the file state by `.ok` of the written map.
* The Gemini backend call of `get_domain_category` is an oracle
  `String → Option String`: `none` models a raised exception
  (transport/backend failure, timeout), `some raw` the `response.text`
  returned.  `request` takes the oracle as a parameter.
* The Domain Normalizer calls the third-party `tldextract` library, whose
  code is not part of this repository; only that extraction primitive is
  modelled from the spec (public-suffix-list semantics), while the join
  `f"{extracted.domain}.{extracted.suffix}"` and its `if not domain:`
  truthiness guard (lines 155-157) are transcribed from the source — see
  `extract`, `joinedDomain` and `normalize` below.
-/

namespace SWG

/-! ## ASCII lowercasing (`str.lower()`) -/

/-- Evaluation of `Char.ofNat` at any valid code point: `(Char.ofNat n).toNat = n`. -/
theorem toNat_ofNat_of_valid {n : Nat} (h : n.isValidChar) :
    (Char.ofNat n).toNat = n := by
  simp only [Char.ofNat, h, dif_pos, Char.ofNatAux, Char.toNat, UInt32.toNat]
  simp [BitVec.toNat_ofNatLt]

/-- Lowercasing a character twice equals lowercasing it once. -/
theorem toLower_idem (c : Char) : c.toLower.toLower = c.toLower := by
  unfold Char.toLower
  simp only []
  by_cases h : c.toNat ≥ 65 ∧ c.toNat ≤ 90
  · have hv : (c.toNat + 32).isValidChar := Or.inl (by omega)
    rw [if_pos h, if_neg (by rw [toNat_ofNat_of_valid hv]; omega)]
  · rw [if_neg h, if_neg h]

/-- Python `s.lower()` on a string (basic-latin range). -/
def lowerStr (s : String) : String := String.mk (s.data.map Char.toLower)

theorem lowerStr_idem (s : String) : lowerStr (lowerStr s) = lowerStr s := by
  simp only [lowerStr, List.map_map]
  congr 1
  exact List.map_congr_left fun c _ => toLower_idem c

/-! ## `str.strip()` and `str.split(sep)[-1]` -/

/-- Python `s.strip()`: drop leading and trailing whitespace. -/
def pyStrip (s : String) : String :=
  String.mk (((s.data.dropWhile Char.isWhitespace).reverse.dropWhile
      Char.isWhitespace).reverse)

/-- Split a character list at every occurrence of `sep`
(Python `s.split(sep)` for a one-character separator). -/
def splitOnC (sep : Char) : List Char → List (List Char)
  | [] => [[]]
  | c :: cs =>
    if c = sep then [] :: splitOnC sep cs
    else
      match splitOnC sep cs with
      | [] => [[c]]
      | l :: ls => (c :: l) :: ls

theorem splitOnC_ne_nil (sep : Char) (cs : List Char) : splitOnC sep cs ≠ [] := by
  cases cs with
  | nil => simp [splitOnC]
  | cons c cs =>
    simp only [splitOnC]
    split
    · simp
    · split <;> simp

/-- Python `s.split(sep)[-1]` (for nonempty split results this is the
substring after the last separator; Python's `[-1]` on the never-empty
result of `split`). -/
def lastAfterSplit (sep : Char) (s : String) : String :=
  String.mk ((splitOnC sep s.data).getLastD [])

/-- Join a list of labels with a separator (inverse of `splitOnC`). -/
def joinC (sep : Char) : List (List Char) → List Char
  | [] => []
  | [l] => l
  | l :: ls => l ++ sep :: joinC sep ls

theorem not_mem_of_mem_splitOnC (sep : Char) (cs : List Char) :
    ∀ l ∈ splitOnC sep cs, sep ∉ l := by
  induction cs with
  | nil => intro l hl; simp [splitOnC] at hl; simp [hl]
  | cons c cs ih =>
    intro l hl
    simp only [splitOnC] at hl
    by_cases hc : c = sep
    · rw [if_pos hc] at hl
      rcases List.mem_cons.mp hl with h | h
      · simp [h]
      · exact ih l h
    · rw [if_neg hc] at hl
      rcases hsp : splitOnC sep cs with _ | ⟨l₀, ls₀⟩
      · exact absurd hsp (splitOnC_ne_nil sep cs)
      · rw [hsp] at hl
        rcases List.mem_cons.mp hl with h | h
        · subst h
          intro hmem
          rcases List.mem_cons.mp hmem with h | h
          · exact hc h.symm
          · exact ih l₀ (hsp ▸ List.mem_cons_self _ _) h
        · exact ih l (hsp ▸ List.mem_cons_of_mem _ h)

theorem mem_of_mem_splitOnC (sep : Char) (cs : List Char) :
    ∀ l ∈ splitOnC sep cs, ∀ c ∈ l, c ∈ cs := by
  induction cs with
  | nil => intro l hl; simp [splitOnC] at hl; simp [hl]
  | cons a cs ih =>
    intro l hl c hc
    simp only [splitOnC] at hl
    by_cases ha : a = sep
    · rw [if_pos ha] at hl
      rcases List.mem_cons.mp hl with h | h
      · simp [h] at hc
      · exact List.mem_cons_of_mem _ (ih l h c hc)
    · rw [if_neg ha] at hl
      rcases hsp : splitOnC sep cs with _ | ⟨l₀, ls₀⟩
      · exact absurd hsp (splitOnC_ne_nil sep cs)
      · rw [hsp] at hl
        rcases List.mem_cons.mp hl with h | h
        · subst h
          rcases List.mem_cons.mp hc with h | h
          · simp [h]
          · exact List.mem_cons_of_mem _ (ih l₀ (hsp ▸ List.mem_cons_self _ _) c h)
        · exact List.mem_cons_of_mem _ (ih l (hsp ▸ List.mem_cons_of_mem _ h) c hc)

theorem splitOnC_of_not_mem (sep : Char) (cs : List Char) (h : sep ∉ cs) :
    splitOnC sep cs = [cs] := by
  induction cs with
  | nil => rfl
  | cons c cs ih =>
    simp only [splitOnC]
    rw [if_neg (by intro hc; exact h (hc ▸ List.mem_cons_self _ _)),
      ih (fun hm => h (List.mem_cons_of_mem _ hm))]

theorem splitOnC_append_sep (sep : Char) (l rest : List Char) (h : sep ∉ l) :
    splitOnC sep (l ++ sep :: rest) = l :: splitOnC sep rest := by
  induction l with
  | nil => simp [splitOnC]
  | cons c l ih =>
    simp only [List.cons_append, splitOnC]
    rw [if_neg (by intro hc; exact h (hc ▸ List.mem_cons_self _ _))]
    rw [List.append_eq, ih (fun hm => h (List.mem_cons_of_mem _ hm))]

theorem splitOnC_joinC (sep : Char) (ls : List (List Char)) (hne : ls ≠ [])
    (hsep : ∀ l ∈ ls, sep ∉ l) : splitOnC sep (joinC sep ls) = ls := by
  induction ls with
  | nil => exact absurd rfl hne
  | cons l ls ih =>
    cases ls with
    | nil => exact splitOnC_of_not_mem sep l (hsep l (List.mem_cons_self _ _))
    | cons l' ls' =>
      show splitOnC sep (l ++ sep :: joinC sep (l' :: ls')) = _
      rw [splitOnC_append_sep sep l _ (hsep l (List.mem_cons_self _ _)),
        ih (by simp) (fun m hm => hsep m (List.mem_cons_of_mem _ hm))]

theorem mem_joinC (sep : Char) (ls : List (List Char)) :
    ∀ c ∈ joinC sep ls, c = sep ∨ ∃ l ∈ ls, c ∈ l := by
  induction ls with
  | nil => intro c hc; simp [joinC] at hc
  | cons l ls ih =>
    intro c hc
    cases ls with
    | nil => exact Or.inr ⟨l, List.mem_cons_self _ _, hc⟩
    | cons l' ls' =>
      rcases List.mem_append.mp hc with h | h
      · exact Or.inr ⟨l, List.mem_cons_self _ _, h⟩
      · rcases List.mem_cons.mp h with h | h
        · exact Or.inl h
        · rcases ih c h with h | ⟨m, hm, hcm⟩
          · exact Or.inl h
          · exact Or.inr ⟨m, List.mem_cons_of_mem _ hm, hcm⟩

/-! ## Domain Normalizer

The addon computes (`SWG-AI.py` lines 154-157):

    extracted = tldextract.extract(flow.request.pretty_host)
    domain = f"{extracted.domain}.{extracted.suffix}" if extracted.suffix
             else extracted.domain
    if not domain: ... warning ... return

`joinedDomain` and `normalize` below transcribe the join and its
truthiness guard from the source.  Only the extraction primitive is
modelled, since `tldextract` is a third-party library whose code is not
part of this repository. -/

/-- Modelled from the spec: the public-suffix rules used by the Domain
Normalizer (spec §4.1: "public-suffix-list semantics (the effective TLD
may be multi-label, e.g. `co.uk`)").  A representative snapshot — the
real list is data, not repository code. -/
def publicSuffixes : List (List String) :=
  [["com"], ["org"], ["net"], ["io"], ["edu"], ["gov"], ["ru"], ["xyz"],
   ["de"], ["fr"], ["jp"], ["uk"], ["co", "uk"], ["ac", "uk"]]

/-- The labels of a host, after case canonicalization. -/
def labelsOf (host : String) : List String :=
  (splitOnC '.' (lowerStr host).data).map String.mk

/-- Length of the longest suffix of `labels` (of length at most the fuel
argument) that is a public-suffix rule; `0` when no suffix matches. -/
def bestMatchAux (labels : List String) : Nat → Nat
  | 0 => 0
  | k + 1 =>
    if labels.drop (labels.length - (k + 1)) ∈ publicSuffixes then k + 1
    else bestMatchAux labels k

/-- Length of the longest public-suffix match among the suffixes of
`labels`. -/
def bestMatch (labels : List String) : Nat := bestMatchAux labels labels.length

/-- Join labels with dots. -/
def mkJoin (ls : List String) : String :=
  String.mk (joinC '.' (ls.map String.data))

/-- The pieces `tldextract.extract` returns that the addon consumes. -/
structure Extracted where
  domain : String
  suffix : String
  deriving DecidableEq, Repr

/-- Modelled from the spec: the extraction primitive of the Domain
Normalizer (spec §4.1), which is delegated to the third-party
`tldextract` library absent from the repository.  The suffix is the
longest suffix of the host's (case-canonicalized) labels matching a
public-suffix rule, empty when none matches; the domain is the single
label preceding the suffix, empty when the whole host is a suffix. -/
def extract (host : String) : Extracted :=
  ⟨if (labelsOf host).length ≤ bestMatch (labelsOf host) then ""
    else ((labelsOf host).drop
      ((labelsOf host).length - bestMatch (labelsOf host) - 1)).headD "",
   if bestMatch (labelsOf host) = 0 then ""
    else mkJoin ((labelsOf host).drop
      ((labelsOf host).length - bestMatch (labelsOf host)))⟩

/-- The join at `SWG-AI.py` line 155:
`f"{extracted.domain}.{extracted.suffix}" if extracted.suffix else
extracted.domain`. -/
def joinedDomain (host : String) : String :=
  if (extract host).suffix = "" then (extract host).domain
  else (extract host).domain ++ "." ++ (extract host).suffix

/-- The joined domain together with the guard at line 157
(`if not domain:`): `none` exactly when the joined string is falsy. -/
def normalize (host : String) : Option String :=
  if joinedDomain host = "" then none else some (joinedDomain host)

theorem bestMatchAux_le (labels : List String) :
    ∀ n, bestMatchAux labels n ≤ n := by
  intro n
  induction n with
  | zero => exact Nat.le_refl 0
  | succ k ih =>
    simp only [bestMatchAux]
    split
    · exact Nat.le_refl _
    · exact Nat.le_trans ih (Nat.le_succ k)

theorem bestMatchAux_mem (labels : List String) :
    ∀ n, bestMatchAux labels n ≠ 0 →
      labels.drop (labels.length - bestMatchAux labels n) ∈ publicSuffixes := by
  intro n
  induction n with
  | zero => intro h; exact absurd rfl h
  | succ k ih =>
    intro h
    simp only [bestMatchAux] at h ⊢
    split
    · next hmem => exact hmem
    · next hmem => exact ih (by simpa [bestMatchAux, hmem] using h)

theorem bestMatchAux_max (labels : List String) :
    ∀ n j, bestMatchAux labels n < j → j ≤ n →
      labels.drop (labels.length - j) ∉ publicSuffixes := by
  intro n
  induction n with
  | zero => intro j h1 h2; omega
  | succ k ih =>
    intro j h1 h2
    simp only [bestMatchAux] at h1
    split at h1
    · omega
    · next hmem =>
      rcases Nat.lt_or_ge j (k + 1) with hj | hj
      · exact ih j h1 (by omega)
      · have : j = k + 1 := by omega
        subst this
        exact hmem

theorem bestMatchAux_eq_of (ls : List String) (k : Nat) (hk0 : k ≠ 0)
    (hnot : ls.drop (ls.length - (k + 1)) ∉ publicSuffixes)
    (hmem : ls.drop (ls.length - k) ∈ publicSuffixes) :
    bestMatchAux ls (k + 1) = k := by
  rcases Nat.exists_eq_succ_of_ne_zero hk0 with ⟨k', rfl⟩
  simp only [bestMatchAux]
  rw [if_neg hnot, if_pos hmem]

theorem labelsOf_ne_nil (host : String) : labelsOf host ≠ [] := by
  unfold labelsOf
  intro h
  rw [List.map_eq_nil_iff] at h
  exact splitOnC_ne_nil '.' _ h

theorem labelsOf_dotfree (host : String) :
    ∀ l ∈ labelsOf host, ¬('.' ∈ l.data) := by
  intro l hl
  rcases List.mem_map.mp hl with ⟨lc, hlc, rfl⟩
  exact not_mem_of_mem_splitOnC '.' _ lc hlc

theorem labelsOf_lower (host : String) :
    ∀ l ∈ labelsOf host, ∀ c ∈ l.data, c.toLower = c := by
  intro l hl c hc
  rcases List.mem_map.mp hl with ⟨lc, hlc, rfl⟩
  have hcs : c ∈ (lowerStr host).data := mem_of_mem_splitOnC '.' _ lc hlc c hc
  simp only [lowerStr] at hcs
  rcases List.mem_map.mp hcs with ⟨x, _, rfl⟩
  exact toLower_idem x

/-- Every rule of the public-suffix snapshot is a nonempty list of
nonempty, dot-free, case-stable labels. -/
theorem psl_wf : ∀ e ∈ publicSuffixes, e ≠ [] ∧
    ∀ l ∈ e, ¬l = "" ∧ ¬('.' ∈ l.data) ∧ ∀ c ∈ l.data, c.toLower = c := by
  decide

theorem joinC_ne_nil (sep : Char) (ls : List (List Char)) (hne : ls ≠ [])
    (h : ∀ l ∈ ls, l ≠ []) : joinC sep ls ≠ [] := by
  cases ls with
  | nil => exact absurd rfl hne
  | cons l ls =>
    cases ls with
    | nil => exact h l (List.mem_cons_self _ _)
    | cons l' ls' =>
      show l ++ sep :: joinC sep (l' :: ls') ≠ []
      exact List.append_ne_nil_of_right_ne_nil _ (by simp)

theorem mkJoin_ne_empty (ls : List String) (hne : ls ≠ [])
    (h : ∀ l ∈ ls, ¬l = "") : ¬mkJoin ls = "" := by
  intro hc
  apply joinC_ne_nil '.' (ls.map String.data) (by simpa using hne)
    (by
      intro lc hlc
      rcases List.mem_map.mp hlc with ⟨l, hl, rfl⟩
      intro hnil
      apply h l hl
      cases l with
      | mk data =>
        rw [show data = [] from hnil])
  have := congrArg String.data hc
  simpa [mkJoin] using this

/-- Re-running the extraction join on a reconstructed string
`D ++ "." ++ mkJoin M` is the identity, whenever `M` is a public-suffix
rule, `D :: M` is not, and `D` is a dot-free case-stable label. -/
theorem joinedDomain_reconstruct (D : String) (M : List String)
    (hM : M ∈ publicSuffixes) (hnot : (D :: M) ∉ publicSuffixes)
    (hdot : ¬('.' ∈ D.data)) (hlow : ∀ c ∈ D.data, c.toLower = c) :
    joinedDomain (D ++ "." ++ mkJoin M) = D ++ "." ++ mkJoin M := by
  obtain ⟨hMne, hMl⟩ := psl_wf M hM
  have hdot1 : (".":String).data = ['.'] := rfl
  have hdata : (D ++ "." ++ mkJoin M).data
      = D.data ++ '.' :: joinC '.' (M.map String.data) := by
    simp [mkJoin, hdot1]
  have hfix : ∀ c ∈ (D ++ "." ++ mkJoin M).data, c.toLower = c := by
    intro c hc
    rw [hdata] at hc
    rcases List.mem_append.mp hc with hcD | hcR
    · exact hlow c hcD
    · rcases List.mem_cons.mp hcR with rfl | hcj
      · decide
      · rcases mem_joinC '.' _ c hcj with rfl | ⟨lc, hlc, hclc⟩
        · decide
        · rcases List.mem_map.mp hlc with ⟨l, hl, rfl⟩
          exact (hMl l hl).2.2 c hclc
  have hlowerAll : (lowerStr (D ++ "." ++ mkJoin M)).data
      = (D ++ "." ++ mkJoin M).data := by
    simp only [lowerStr]
    simpa using List.map_congr_left hfix
  have hlabels : labelsOf (D ++ "." ++ mkJoin M) = D :: M := by
    rw [labelsOf, hlowerAll, hdata,
      splitOnC_append_sep '.' D.data _ hdot,
      splitOnC_joinC '.' (M.map String.data)
        (by simpa using hMne)
        (by
          intro lc hlc
          rcases List.mem_map.mp hlc with ⟨l, hl, rfl⟩
          exact (hMl l hl).2.1),
      List.map_cons, List.map_map,
      show (String.mk ∘ String.data) = (id : String → String) from
        funext fun s => rfl,
      List.map_id]
  have hbm : bestMatch (D :: M) = M.length := by
    rw [bestMatch, List.length_cons]
    apply bestMatchAux_eq_of
    · intro h0
      rw [List.length_eq_zero] at h0
      exact hMne h0
    · simpa using hnot
    · simpa using hM
  have hSne : ¬mkJoin M = "" :=
    mkJoin_ne_empty M hMne (fun l hl => (hMl l hl).1)
  have hex : extract (D ++ "." ++ mkJoin M) = ⟨D, mkJoin M⟩ := by
    unfold extract
    rw [hlabels, hbm]
    congr 1
    · rw [if_neg (by simp only [List.length_cons]; omega)]
      rw [show (D :: M).length - M.length - 1 = 0 by
        simp only [List.length_cons]; omega]
      rfl
    · rw [if_neg (by
        intro h0
        rw [List.length_eq_zero] at h0
        exact hMne h0)]
      rw [show (D :: M).length - M.length = 1 by
        simp only [List.length_cons]; omega]
      rfl
  simp only [joinedDomain, hex]
  rw [if_neg hSne]

/-- Re-running the extraction join on a single dot-free case-stable
label that is not itself a one-label public-suffix rule is the
identity. -/
theorem joinedDomain_single (D : String) (hnot : [D] ∉ publicSuffixes)
    (hdot : ¬('.' ∈ D.data)) (hlow : ∀ c ∈ D.data, c.toLower = c) :
    joinedDomain D = D := by
  have hlowD : (lowerStr D).data = D.data := by
    simp only [lowerStr]
    simpa using List.map_congr_left hlow
  have hlabels : labelsOf D = [D] := by
    rw [labelsOf, hlowD, splitOnC_of_not_mem '.' D.data hdot]
    rfl
  have hbm : bestMatch [D] = 0 := by
    rw [bestMatch]
    show bestMatchAux [D] 1 = 0
    simp only [bestMatchAux]
    rw [if_neg (by simpa using hnot)]
  have hex : extract D = ⟨D, ""⟩ := by
    unfold extract
    rw [hlabels, hbm]
    simp
  simp only [joinedDomain, hex]
  rw [if_pos trivial]

/-- The joined-domain computation at line 155 is idempotent whenever its
result is truthy. -/
theorem joinedDomain_idem (host : String) :
    joinedDomain (joinedDomain host) = joinedDomain host := by
  have hkn : bestMatch (labelsOf host) ≤ (labelsOf host).length :=
    bestMatchAux_le _ _
  have hn0 : (labelsOf host).length ≠ 0 := by
    intro h0
    exact labelsOf_ne_nil host (List.length_eq_zero.mp h0)
  by_cases hk : bestMatch (labelsOf host) = 0
  · -- no suffix match: the joined domain is the last label
    have hlen1 : ((labelsOf host).drop ((labelsOf host).length - 1)).length
        = 1 := by
      rw [List.length_drop]
      omega
    rcases hdrop : (labelsOf host).drop ((labelsOf host).length - 1)
      with _ | ⟨D, rest⟩
    · rw [hdrop] at hlen1
      simp at hlen1
    · have hrest : rest = [] := by
        rw [hdrop] at hlen1
        simpa using hlen1
      subst hrest
      have hsuf : (extract host).suffix = "" := by
        simp only [extract, hk]
        rw [if_pos trivial]
      have hdom : (extract host).domain = D := by
        simp only [extract, hk, Nat.sub_zero]
        rw [if_neg (by omega), hdrop]
        rfl
      have hjd : joinedDomain host = D := by
        simp only [joinedDomain]
        rw [hsuf, if_pos rfl, hdom]
      have hD : D ∈ labelsOf host :=
        List.mem_of_mem_drop (hdrop ▸ List.mem_cons_self D [])
      have hnotD : [D] ∉ publicSuffixes := by
        have hmax := bestMatchAux_max (labelsOf host) (labelsOf host).length 1
          (by rw [← bestMatch, hk]; omega) (by omega)
        rw [hdrop] at hmax
        exact hmax
      rw [hjd]
      exact joinedDomain_single D hnotD (labelsOf_dotfree host D hD)
        (labelsOf_lower host D hD)
  · -- a suffix matched
    have hM : (labelsOf host).drop
        ((labelsOf host).length - bestMatch (labelsOf host))
        ∈ publicSuffixes := by
      have hmem := bestMatchAux_mem (labelsOf host) (labelsOf host).length
        (by rw [← bestMatch]; exact hk)
      rw [← bestMatch] at hmem
      exact hmem
    have hSne : ¬(extract host).suffix = "" := by
      simp only [extract]
      rw [if_neg hk]
      exact mkJoin_ne_empty _ (psl_wf _ hM).1
        (fun l hl => ((psl_wf _ hM).2 l hl).1)
    have hsuf : (extract host).suffix = mkJoin ((labelsOf host).drop
        ((labelsOf host).length - bestMatch (labelsOf host))) := by
      simp only [extract]
      rw [if_neg hk]
    by_cases hnk : (labelsOf host).length ≤ bestMatch (labelsOf host)
    · -- the whole host is a public suffix: domain piece is empty
      have hdom : (extract host).domain = "" := by
        simp only [extract]
        rw [if_pos hnk]
      have hjd : joinedDomain host = "" ++ "." ++ mkJoin ((labelsOf host).drop
          ((labelsOf host).length - bestMatch (labelsOf host))) := by
        simp only [joinedDomain]
        rw [hsuf, hdom, if_neg (hsuf ▸ hSne)]
      have hnot : ("" :: (labelsOf host).drop
          ((labelsOf host).length - bestMatch (labelsOf host)))
          ∉ publicSuffixes := by
        intro hmem
        exact ((psl_wf _ hmem).2 "" (List.mem_cons_self _ _)).1 rfl
      rw [hjd]
      exact joinedDomain_reconstruct "" _ hM hnot (by simp) (by simp)
    · -- a label precedes the suffix
      push_neg at hnk
      have hlenD : ((labelsOf host).drop
          ((labelsOf host).length - bestMatch (labelsOf host) - 1)).length
          = bestMatch (labelsOf host) + 1 := by
        rw [List.length_drop]
        omega
      rcases hdrop : (labelsOf host).drop
          ((labelsOf host).length - bestMatch (labelsOf host) - 1)
        with _ | ⟨D, rest⟩
      · rw [hdrop] at hlenD
        simp at hlenD
      · have hrest : rest = (labelsOf host).drop
            ((labelsOf host).length - bestMatch (labelsOf host)) := by
          have h1 : ((labelsOf host).drop
              ((labelsOf host).length - bestMatch (labelsOf host) - 1)).drop 1
              = (labelsOf host).drop
                ((labelsOf host).length - bestMatch (labelsOf host)) := by
            rw [List.drop_drop]
            congr 1
            omega
          rw [hdrop] at h1
          simpa using h1
        have hdom : (extract host).domain = D := by
          simp only [extract]
          rw [if_neg (by omega), hdrop]
          rfl
        have hjd : joinedDomain host = D ++ "." ++ mkJoin ((labelsOf host).drop
            ((labelsOf host).length - bestMatch (labelsOf host))) := by
          simp only [joinedDomain]
          rw [hsuf, hdom, if_neg (hsuf ▸ hSne)]
        have hD : D ∈ labelsOf host :=
          List.mem_of_mem_drop (hdrop ▸ List.mem_cons_self D rest)
        have hnot : (D :: (labelsOf host).drop
            ((labelsOf host).length - bestMatch (labelsOf host)))
            ∉ publicSuffixes := by
          have hmax := bestMatchAux_max (labelsOf host) (labelsOf host).length
            (bestMatch (labelsOf host) + 1)
            (by rw [← bestMatch]; omega) (by omega)
          rw [show (labelsOf host).length - (bestMatch (labelsOf host) + 1)
              = (labelsOf host).length - bestMatch (labelsOf host) - 1 from by
            omega, hdrop, hrest] at hmax
          exact hmax
        rw [hjd]
        exact joinedDomain_reconstruct D _ hM hnot
          (labelsOf_dotfree host D hD) (labelsOf_lower host D hD)

/-- Normalization is idempotent on success: re-normalizing the joined
domain of a request gives it back unchanged. -/
theorem normalize_idem {host d : String} (h : normalize host = some d) :
    normalize d = some d := by
  unfold normalize at h
  split at h
  · exact absurd h (by simp)
  · next hne =>
    obtain rfl := Option.some.inj h
    rw [normalize, joinedDomain_idem host, if_neg hne]

/-! ## Classifier Client (`URLCategorizer.get_domain_category`)

The backend call is an oracle value `Option String`: `none` models a
raised exception (transport failure, timeout, error response), `some raw`
models the `response.text` the Gemini API returned. -/

/-- The fixed label vocabulary enumerated in the classification prompt
(`SWG-AI.py` lines 221-246). -/
def labelVocabulary : List String :=
  ["Social Media", "News", "Video Streaming", "E-commerce",
   "Software Development", "Cloud Storage", "Communication",
   "Search Engine", "Phishing", "Malware", "Suspicious", "Encyclopedia",
   "Business", "Content Delivery Network", "Adult Content", "Pornography",
   "Healthcare", "Information Technology", "Travel", "Education",
   "Entertainment", "Shopping", "Vehicles", "Games", "Drugs", "AI/ML"]

/-- Post-processing of a raw classifier response (`SWG-AI.py` lines
299-308): `category = response.text.strip()`; if `":" in category`,
`category = category.split(":")[-1].strip()`; if `len(category) > 50`,
return `"Unknown"`; else return `category`. -/
def sanitizeOutput (raw : String) : String :=
  let category := pyStrip raw
  let category :=
    if ':' ∈ category.data then pyStrip (lastAfterSplit ':' category)
    else category
  if category.length > 50 then "Unknown" else category

/-- Model of `URLCategorizer.get_domain_category` (`SWG-AI.py` lines 294-312):
on an exception from the backend (`none`) it returns `""`; otherwise the
sanitized response text. -/
def get_domain_category (classifierOutput : Option String) : String :=
  match classifierOutput with
  | some raw => sanitizeOutput raw
  | none => ""

/-! ## Persisted stores and string-keyed dictionaries -/

/-- A JSON file on disk: absent, present but undecodable, or decoded. -/
inductive JsonFile (α : Type) where
  | missing : JsonFile α
  | corrupt : JsonFile α
  | ok : α → JsonFile α
  deriving DecidableEq, Repr

/-- Contents of `categories.json`: category label → policy string (e.g. `"blocked"`,
`"allowed"`), as an insertion-ordered association list. -/
abbrev PolicyMap := List (String × String)

/-- Contents of `domain_cache.json`: domain → category label. -/
abbrev CacheMap := List (String × String)

/-- Python `d.get(k)` — value of the first entry with key `k`. -/
def dictGet (m : List (String × String)) (k : String) : Option String :=
  (m.find? (fun p => p.1 = k)).map (·.2)

/-- Python `k in d`. -/
def dictHasKey (m : List (String × String)) (k : String) : Bool :=
  m.any (fun p => p.1 = k)

/-- Python `d[k] = v` — overwrite in place or append. -/
def dictSet (m : List (String × String)) (k v : String) :
    List (String × String) :=
  if dictHasKey m k then m.map (fun p => if p.1 = k then (k, v) else p)
  else m ++ [(k, v)]

/-! ## Startup (`URLCategorizer.__init__` and its helpers) -/

/-- Model of `URLCategorizer._load_blocked_categories` (`SWG-AI.py` lines 95-112):
on success, the set of categories whose status lowercases to
`"blocked"`; on `FileNotFoundError`, creates an empty file and returns
the empty set; on any other exception (in particular undecodable JSON),
logs the error and returns the empty set, leaving the file untouched. -/
def load_blocked_categories (file : JsonFile PolicyMap) :
    List String × JsonFile PolicyMap :=
  match file with
  | .ok m => ((m.filter (fun p => lowerStr p.2 = "blocked")).map (·.1), .ok m)
  | .missing => ([], .ok [])
  | .corrupt => ([], .corrupt)

/-- Model of `URLCategorizer.load_cache_from_file` (`SWG-AI.py` lines 127-140):
on `FileNotFoundError`, creates an empty file and starts empty; on
`json.JSONDecodeError`, starts with an empty cache. -/
def load_cache_from_file (file : JsonFile CacheMap) :
    CacheMap × JsonFile CacheMap :=
  match file with
  | .ok m => (m, .ok m)
  | .missing => ([], .ok [])
  | .corrupt => ([], .corrupt)

/-- The inline fallback block page (`SWG-AI.py` line 93). -/
def fallbackBlockPage : String :=
  "<h1>Access Denied!</h1><p>Blocked by filter.</p>"

/-- The on-disk environment of the addon. -/
structure Files where
  domain_cache : JsonFile CacheMap
  categories : JsonFile PolicyMap
  /-- Contents of `block_page.html`: `some content`, or `none` when missing/unreadable
  (`_load_block_page_html` returns `None` on any exception). -/
  block_page : Option String
  deriving DecidableEq, Repr

/-- The in-memory state of a `URLCategorizer` instance. -/
structure Engine where
  category_cache : CacheMap
  blocked_categories : List String
  block_page_html : String
  deriving DecidableEq, Repr

/-- Model of `URLCategorizer.__init__` (`SWG-AI.py` lines 79-93).  Note that it is
total: every failure while loading either file is caught and replaced by
an empty store, and a falsy (missing or empty) block page is replaced by
the inline fallback. -/
def initEngine (fs : Files) : Engine × Files :=
  let c := load_cache_from_file fs.domain_cache
  let b := load_blocked_categories fs.categories
  let html :=
    match fs.block_page with
    | some s => if s = "" then fallbackBlockPage else s
    | none => fallbackBlockPage
  (⟨c.1, b.1, html⟩, ⟨c.2, b.2, fs.block_page⟩)

/-! ## Decision Engine (`URLCategorizer.request`) -/

/-- A synthetic HTTP response (`http.Response.make`). -/
structure HttpResponse where
  status : Nat
  body : String
  contentType : String
  deriving DecidableEq, Repr

/-- The verdict returned to the interception transport: pass the request
through unmodified (no `flow.response` substituted), or substitute a
block response. -/
inductive Verdict where
  | passThrough : Verdict
  | blocked : HttpResponse → Verdict
  deriving DecidableEq, Repr

/-- Result of one `request` invocation: the verdict, the updated
in-memory state and on-disk files, whether the classifier backend was
called, and whether the could-not-extract-domain warning was logged. -/
structure ReqOutcome where
  verdict : Verdict
  engine : Engine
  files : Files
  classifierCalled : Bool
  warnedNoDomain : Bool
  deriving DecidableEq, Repr

/-- The mid-request read of `categories.json` (`SWG-AI.py` lines
178-182): only `FileNotFoundError` is caught (yielding `{}`); an
undecodable file raises an uncaught `json.JSONDecodeError` (`none`). -/
def readPolicyFile : JsonFile PolicyMap → Option PolicyMap
  | .missing => some []
  | .corrupt => none
  | .ok m => some m

/-- The blocking logic at the end of `request` (`SWG-AI.py` lines
199-214): a category in the startup snapshot `blocked_categories` gets a
synthetic 403 text/html response carrying `block_page_html`; any other
category falls off the end of the handler (pass through). -/
def applyPolicy (e : Engine) (fs : Files) (category : String)
    (called warned : Bool) : ReqOutcome :=
  if category ∈ e.blocked_categories then
    ⟨.blocked ⟨403, e.block_page_html, "text/html"⟩, e, fs, called, warned⟩
  else ⟨.passThrough, e, fs, called, warned⟩

/-- The cache-miss path of `request` (`SWG-AI.py` lines 167-193): call
the classifier; on a falsy result, return with no further action; else
add the category to `categories.json` as `"allowed"` if new (except for
the literal `"Error (Gemini API)"`), cache the domain, persist the
cache, and fall through to the blocking logic. -/
def classifyAndUpdate (classify : String → Option String) (domain : String)
    (e : Engine) (fs : Files) : Option ReqOutcome :=
  let category := get_domain_category (classify domain)
  if category = "" then some ⟨.passThrough, e, fs, true, false⟩
  else
    match readPolicyFile fs.categories with
    | none => none
    | some pols =>
      let categoriesFile' :=
        if dictHasKey pols category then fs.categories
        else if category ≠ "Error (Gemini API)" then
          JsonFile.ok (pols ++ [(category, "allowed")])
        else fs.categories
      let cache' := dictSet e.category_cache domain category
      some (applyPolicy ⟨cache', e.blocked_categories, e.block_page_html⟩
        ⟨.ok cache', categoriesFile', fs.block_page⟩ category true false)

/-- Model of `URLCategorizer.request` (`SWG-AI.py` lines 151-214).  A falsy
`pretty_host` skips the whole handler silently; a host that normalizes
to a falsy domain logs a warning and returns; a cached truthy category
skips the classifier; otherwise the miss path runs.  `none` models an
uncaught exception escaping the handler. -/
def request (classify : String → Option String) (host : String)
    (e : Engine) (fs : Files) : Option ReqOutcome :=
  if host = "" then some ⟨.passThrough, e, fs, false, false⟩
  else
    match normalize host with
    | none => some ⟨.passThrough, e, fs, false, true⟩
    | some domain =>
      match dictGet e.category_cache domain with
      | some c =>
        if c = "" then classifyAndUpdate classify domain e fs
        else some (applyPolicy e fs c false false)
      | none => classifyAndUpdate classify domain e fs

/-- Run a sequence of requests, counting the classifier calls made while
handling hosts that normalize to the domain `d`. -/
def runTrace (classify : String → Option String) (d : String) :
    List String → Engine → Files → Option (Engine × Files × Nat)
  | [], e, fs => some (e, fs, 0)
  | h :: hs, e, fs =>
    match request classify h e fs with
    | none => none
    | some o =>
      match runTrace classify d hs o.engine o.files with
      | none => none
      | some (e', fs', n) =>
        some (e', fs',
          (if o.classifierCalled = true ∧ normalize h = some d then 1 else 0) + n)

/-! ## Dictionary lemmas -/

theorem dictGet_eq_none_iff (m : List (String × String)) (k : String) :
    dictGet m k = none ↔ dictHasKey m k = false := by
  simp only [dictGet, dictHasKey, Option.map_eq_none', List.find?_eq_none,
    List.any_eq_false]

theorem dictGet_append_self (m : List (String × String)) (k v : String)
    (h : dictHasKey m k = false) : dictGet (m ++ [(k, v)]) k = some v := by
  have hf : m.find? (fun p => p.1 = k) = none := by
    rw [List.find?_eq_none]
    simp only [dictHasKey, List.any_eq_false] at h
    exact h
  simp [dictGet, List.find?_append, hf, List.find?]

theorem dictGet_dictSet_self (m : List (String × String)) (k v : String) :
    dictGet (dictSet m k v) k = some v := by
  unfold dictSet
  split
  · next h =>
    have hs : (m.find? (fun p => p.1 = k)).isSome := by
      rw [List.find?_isSome]
      simpa [dictHasKey, List.any_eq_true] using h
    obtain ⟨p₀, hp₀⟩ := Option.isSome_iff_exists.mp hs
    have hk₀ : p₀.1 = k := by simpa using List.find?_some hp₀
    have hcomp : ((fun p : String × String => decide (p.1 = k)) ∘
        (fun p => if p.1 = k then (k, v) else p)) =
        fun p : String × String => decide (p.1 = k) := by
      funext p
      by_cases hp : p.1 = k <;> simp [hp]
    simp [dictGet, List.find?_map, hcomp, hp₀, hk₀]
  · next h => exact dictGet_append_self m k v (by simpa using h)

theorem dictGet_dictSet_ne (m : List (String × String)) (k v k' : String)
    (h : k' ≠ k) : dictGet (dictSet m k v) k' = dictGet m k' := by
  have hkk : ¬(k = k') := fun he => h he.symm
  unfold dictSet
  split
  · have hcomp : ((fun p : String × String => decide (p.1 = k')) ∘
        (fun p => if p.1 = k then (k, v) else p)) =
        fun p : String × String => decide (p.1 = k') := by
      funext p
      by_cases hp : p.1 = k <;> simp [hp, hkk]
    rcases hf : m.find? (fun p => p.1 = k') with _ | p₀
    · simp [dictGet, List.find?_map, hcomp, hf]
    · have hk₀ : p₀.1 = k' := by simpa using List.find?_some hf
      simp [dictGet, List.find?_map, hcomp, hf, hk₀, h,
        show ¬(p₀.1 = k) from fun he => h (hk₀ ▸ he)]
  · simp [dictGet, List.find?_append, List.find?, hkk]

/-! ## Small lemmas about the blocking step -/

theorem applyPolicy_engine (e : Engine) (fs : Files) (c : String)
    (w₁ w₂ : Bool) : (applyPolicy e fs c w₁ w₂).engine = e := by
  unfold applyPolicy; split <;> rfl

theorem applyPolicy_files (e : Engine) (fs : Files) (c : String)
    (w₁ w₂ : Bool) : (applyPolicy e fs c w₁ w₂).files = fs := by
  unfold applyPolicy; split <;> rfl

theorem applyPolicy_called (e : Engine) (fs : Files) (c : String)
    (w₁ w₂ : Bool) : (applyPolicy e fs c w₁ w₂).classifierCalled = w₁ := by
  unfold applyPolicy; split <;> rfl

theorem applyPolicy_verdict_passThrough (e : Engine) (fs : Files)
    (c : String) (w₁ w₂ : Bool) (h : c ∉ e.blocked_categories) :
    (applyPolicy e fs c w₁ w₂).verdict = .passThrough := by
  unfold applyPolicy
  rw [if_neg h]

theorem applyPolicy_verdict_indep (e : Engine) (fs fs' : Files)
    (c : String) (w₁ w₂ w₁' w₂' : Bool) :
    (applyPolicy e fs c w₁ w₂).verdict = (applyPolicy e fs' c w₁' w₂').verdict := by
  unfold applyPolicy
  split <;> rfl

/-- A label absent from a policy map is never in its blocked set. -/
theorem not_mem_blocked_of_not_key (pols : PolicyMap) (L : String)
    (h : dictHasKey pols L = false) :
    L ∉ (load_blocked_categories (.ok pols)).1 := by
  intro hmem
  simp only [load_blocked_categories] at hmem
  rcases List.mem_map.mp hmem with ⟨p, hp, rfl⟩
  have hp' := List.mem_filter.mp hp
  simp only [dictHasKey, List.any_eq_false] at h
  have hne : ¬(p.1 = p.1) := by simpa using h p hp'.1
  exact hne rfl

/-- Appending an `"allowed"` entry never changes the blocked set read
back from the policy file. -/
theorem blocked_append_allowed (pols : PolicyMap) (L : String) :
    (load_blocked_categories (.ok (pols ++ [(L, "allowed")]))).1 =
      (load_blocked_categories (.ok pols)).1 := by
  simp only [load_blocked_categories, List.filter_append]
  have hall : (fun p : String × String =>
      decide (lowerStr p.2 = "blocked")) (L, "allowed") = false := by
    show decide (lowerStr "allowed" = "blocked") = false
    decide
  simp [List.filter_cons, hall]

/-! ## Lemmas about the cache-miss path -/

/-- On the miss path, when the classifier yields a usable label and the
policy file is readable, the outcome caches the label for the domain,
keeps the policy file readable, and records the classifier call. -/
theorem classifyAndUpdate_success
    (classify : String → Option String) (d : String) (e : Engine)
    (fs : Files) (hok : ¬get_domain_category (classify d) = "")
    (hfile : fs.categories ≠ .corrupt) :
    ∃ o, classifyAndUpdate classify d e fs = some o ∧
      o.engine.category_cache =
        dictSet e.category_cache d (get_domain_category (classify d)) ∧
      o.files.categories ≠ .corrupt ∧
      o.classifierCalled = true := by
  unfold classifyAndUpdate
  rw [if_neg hok]
  cases hfs : fs.categories with
  | corrupt => exact absurd hfs hfile
  | missing =>
    refine ⟨_, rfl, by rw [applyPolicy_engine], ?_, by rw [applyPolicy_called]⟩
    rw [applyPolicy_files]
    split
    · rw [← hfs]; exact hfile
    · split
      · exact fun hcon => JsonFile.noConfusion hcon
      · rw [← hfs]; exact hfile
  | ok pols =>
    refine ⟨_, rfl, by rw [applyPolicy_engine], ?_, by rw [applyPolicy_called]⟩
    rw [applyPolicy_files]
    split
    · rw [← hfs]; exact hfile
    · split
      · exact fun hcon => JsonFile.noConfusion hcon
      · rw [← hfs]; exact hfile

/-- On the miss path for a domain `d` other than `domain`, a cached
entry for `domain` survives and the policy file stays readable. -/
theorem classifyAndUpdate_preserves
    (classify : String → Option String) (d : String) (e : Engine)
    (fs : Files) (domain c : String) (hd : d ≠ domain)
    (hc : dictGet e.category_cache domain = some c)
    (hfile : fs.categories ≠ .corrupt) :
    ∃ o, classifyAndUpdate classify d e fs = some o ∧
      dictGet o.engine.category_cache domain = some c ∧
      o.files.categories ≠ .corrupt := by
  by_cases hcat : get_domain_category (classify d) = ""
  · refine ⟨_, by unfold classifyAndUpdate; rw [if_pos hcat], hc, hfile⟩
  · obtain ⟨o, ho, hcache, hfileo, _⟩ :=
      classifyAndUpdate_success classify d e fs hcat hfile
    refine ⟨o, ho, ?_, hfileo⟩
    rw [hcache, dictGet_dictSet_ne _ _ _ _ (fun he => hd he.symm)]
    exact hc

/-- A non-empty cached entry for `domain` survives any single request,
the policy file stays readable, and a request for a host that normalizes
to `domain` does not call the classifier. -/
theorem request_preserves_cached
    (classify : String → Option String) (h : String) (e : Engine)
    (fs : Files) (domain c : String)
    (hc : dictGet e.category_cache domain = some c) (hcne : ¬c = "")
    (hfile : fs.categories ≠ .corrupt) :
    ∃ o, request classify h e fs = some o ∧
      dictGet o.engine.category_cache domain = some c ∧
      o.files.categories ≠ .corrupt ∧
      (normalize h = some domain → o.classifierCalled = false) := by
  unfold request
  by_cases hh : h = ""
  · rw [if_pos hh]
    exact ⟨_, rfl, hc, hfile, fun _ => rfl⟩
  · rw [if_neg hh]
    cases hn : normalize h with
    | none => exact ⟨_, rfl, hc, hfile, fun _ => rfl⟩
    | some d =>
      dsimp only
      by_cases hd : d = domain
      · subst hd
        simp only [hc]
        rw [if_neg hcne]
        exact ⟨_, rfl, by rw [applyPolicy_engine]; exact hc,
          by rw [applyPolicy_files]; exact hfile,
          fun _ => by rw [applyPolicy_called]⟩
      · cases hcd : dictGet e.category_cache d with
        | none =>
          dsimp only
          obtain ⟨o, ho, hoc, hof⟩ :=
            classifyAndUpdate_preserves classify d e fs domain c hd hc hfile
          exact ⟨o, ho, hoc, hof,
            fun hcon => absurd (Option.some.inj hcon) hd⟩
        | some c' =>
          dsimp only
          by_cases hc' : c' = ""
          · rw [if_pos hc']
            obtain ⟨o, ho, hoc, hof⟩ :=
              classifyAndUpdate_preserves classify d e fs domain c hd hc hfile
            exact ⟨o, ho, hoc, hof,
              fun hcon => absurd (Option.some.inj hcon) hd⟩
          · rw [if_neg hc']
            exact ⟨_, rfl, by rw [applyPolicy_engine]; exact hc,
              by rw [applyPolicy_files]; exact hfile,
              fun hcon => absurd (Option.some.inj hcon) hd⟩

/-- Once `domain` has a non-empty cached label, an arbitrary further
request trace makes zero classifier calls for it and preserves the
cached label. -/
theorem runTrace_no_calls
    (classify : String → Option String) (domain c : String) (hcne : ¬c = "") :
    ∀ (hosts : List String) (e : Engine) (fs : Files),
      dictGet e.category_cache domain = some c →
      fs.categories ≠ .corrupt →
      ∃ e' fs', runTrace classify domain hosts e fs = some (e', fs', 0) ∧
        dictGet e'.category_cache domain = some c := by
  intro hosts
  induction hosts with
  | nil => exact fun e fs hc _ => ⟨e, fs, rfl, hc⟩
  | cons h hs ih =>
    intro e fs hc hfile
    obtain ⟨o, ho, hoc, hof, hcall⟩ :=
      request_preserves_cached classify h e fs domain c hc hcne hfile
    obtain ⟨e', fs', htr, he'⟩ := ih o.engine o.files hoc hof
    refine ⟨e', fs', ?_, he'⟩
    simp only [runTrace, ho, htr]
    rw [if_neg (by
      rintro ⟨h1, h2⟩
      rw [hcall h2] at h1
      exact Bool.false_ne_true h1)]

/-! ## Claim theorems -/

/-- C9: domain normalization is pure and deterministic (it is a function
of the host string alone), idempotent, and maps both
`"www.a.example.co.uk"` and `"A.EXAMPLE.CO.UK"` to `"example.co.uk"`. -/
theorem normalization_pure_idempotent (h d : String)
    (hd : normalize h = some d) :
    normalize d = some d ∧
    normalize "www.a.example.co.uk" = some "example.co.uk" ∧
    normalize "A.EXAMPLE.CO.UK" = some "example.co.uk" :=
  ⟨normalize_idem hd, by decide, by decide⟩

/-- Witness for C9 at the host `"www.a.example.co.uk"`. -/
theorem normalization_pure_idempotent_witness :
    normalize "example.co.uk" = some "example.co.uk" ∧
    normalize "www.a.example.co.uk" = some "example.co.uk" ∧
    normalize "A.EXAMPLE.CO.UK" = some "example.co.uk" :=
  normalization_pure_idempotent "www.a.example.co.uk" "example.co.uk" (by decide)

/-- C1 counterexample: with a corrupt `categories.json`, startup is not
fatal — `initEngine` completes, enters service with an empty
blocked-categories set, and a subsequent request for a domain cached
under a category the corrupt file was meant to block is passed through. -/
theorem corrupt_policy_startup_not_fatal :
    (initEngine ⟨.ok [("facebook.com", "Social Media")], .corrupt,
        some "PAGE"⟩).1.blocked_categories = [] ∧
    request (fun _ => none) "facebook.com"
        (initEngine ⟨.ok [("facebook.com", "Social Media")], .corrupt,
          some "PAGE"⟩).1
        (initEngine ⟨.ok [("facebook.com", "Social Media")], .corrupt,
          some "PAGE"⟩).2 =
      some ⟨.passThrough,
        ⟨[("facebook.com", "Social Media")], [], "PAGE"⟩,
        ⟨.ok [("facebook.com", "Social Media")], .corrupt, some "PAGE"⟩,
        false, false⟩ := by
  constructor <;> decide

/-- C1 amended: a corrupt `categories.json` at startup is handled
non-fatally — `_load_blocked_categories` catches the exception, the
engine enters service with an empty blocked-categories set (so every
category is effectively allowed), and the corrupt file is left in
place. -/
theorem corrupt_policy_startup_empty_blocked (dc : JsonFile CacheMap)
    (bp : Option String) :
    (initEngine ⟨dc, .corrupt, bp⟩).1.blocked_categories = [] ∧
    (initEngine ⟨dc, .corrupt, bp⟩).2.categories = .corrupt :=
  ⟨rfl, rfl⟩

/-- C2: on a classifier failure (raised exception or empty output) for an
uncached domain, `get_domain_category` returns the empty-string failure
sentinel (distinct from `"Unknown"`), and the request terminates with a
pass-through (Allowed) verdict leaving the in-memory state and both
persisted files exactly unchanged. -/
theorem classifier_failure_fail_open
    (classify : String → Option String) (host domain : String)
    (e : Engine) (fs : Files)
    (hn : normalize host = some domain)
    (hmiss : dictGet e.category_cache domain = none)
    (hfail : classify domain = none ∨ classify domain = some "") :
    get_domain_category (classify domain) = "" ∧
    get_domain_category (classify domain) ≠ "Unknown" ∧
    request classify host e fs = some ⟨.passThrough, e, fs, true, false⟩ := by
  have hhost : ¬host = "" := by
    intro h0
    rw [h0, show normalize "" = none from by decide] at hn
    exact Option.noConfusion hn
  have hgc : get_domain_category (classify domain) = "" := by
    rcases hfail with h | h <;> rw [h] <;> decide
  refine ⟨hgc, by rw [hgc]; decide, ?_⟩
  simp only [request, if_neg hhost, hn, hmiss, classifyAndUpdate, hgc]
  simp

/-- Witness for C2: a classifier stub that always raises, an empty cache. -/
theorem classifier_failure_fail_open_witness :
    get_domain_category ((fun _ => none) "foo.com") = "" ∧
    get_domain_category ((fun _ => none) "foo.com") ≠ "Unknown" ∧
    request (fun _ => none) "foo.com" ⟨[], ["Social Media"], "PAGE"⟩
        ⟨.ok [], .ok [("Social Media", "blocked")], some "PAGE"⟩ =
      some ⟨.passThrough, ⟨[], ["Social Media"], "PAGE"⟩,
        ⟨.ok [], .ok [("Social Media", "blocked")], some "PAGE"⟩,
        true, false⟩ :=
  classifier_failure_fail_open (fun _ => none) "foo.com" "foo.com"
    ⟨[], ["Social Media"], "PAGE"⟩
    ⟨.ok [], .ok [("Social Media", "blocked")], some "PAGE"⟩
    (by decide) rfl (Or.inl rfl)

/-- C8 counterexample: a request with an empty host string (which cannot
be normalized: `normalize "" = none`) terminates with a pass-through
verdict, no classifier call and no store mutation, but WITHOUT the
warning the claim requires — the handler skips it silently. -/
theorem empty_host_no_warning :
    normalize "" = none ∧
    request (fun _ => some "News") "" ⟨[], [], "P"⟩
        ⟨.ok [], .ok [], some "P"⟩ =
      some ⟨.passThrough, ⟨[], [], "P"⟩, ⟨.ok [], .ok [], some "P"⟩,
        false, false⟩ := by
  constructor <;> decide

/-- C8 amended: a request whose host joins to a falsy (empty) extracted
domain terminates with a pass-through (Allowed) verdict and the
could-not-extract warning when the host itself is non-empty (an empty
host terminates the same way but silently), without calling the
classifier or touching either store.  Hosts that merely lack a
registrable domain are NOT all treated this way: a bare public suffix
joins to a truthy dotted string (`"co.uk"` to `".co.uk"`) and a
suffix-less name stays truthy (`"localhost"`), so those requests
proceed to classification instead of warn-and-return. -/
theorem nodomain_fail_open
    (classify : String → Option String) (host : String) (e : Engine)
    (fs : Files) (hne : ¬host = "") (hn : normalize host = none) :
    request classify host e fs = some ⟨.passThrough, e, fs, false, true⟩ ∧
    normalize "co.uk" = some ".co.uk" ∧
    normalize "localhost" = some "localhost" :=
  ⟨by simp only [request, if_neg hne, hn], by decide, by decide⟩

/-- C5: a request whose resolved category is in the blocked set gets a
substituted response with status 403, Content-Type `text/html` and the
configured block page as body, and handling stops there (state and files
untouched); when `block_page.html` is missing, the body is the inline
"Access Denied" fallback. -/
theorem blocked_category_served_block_page
    (classify : String → Option String) (fs0 : Files) (m : CacheMap)
    (host domain c : String)
    (hn : normalize host = some domain)
    (hcache : fs0.domain_cache = .ok m)
    (hc : dictGet m domain = some c) (hcne : ¬c = "")
    (hb : c ∈ (initEngine fs0).1.blocked_categories) :
    request classify host (initEngine fs0).1 (initEngine fs0).2 =
      some ⟨.blocked ⟨403, (initEngine fs0).1.block_page_html, "text/html"⟩,
        (initEngine fs0).1, (initEngine fs0).2, false, false⟩ ∧
    (fs0.block_page = none →
      (initEngine fs0).1.block_page_html = fallbackBlockPage) := by
  have hhost : ¬host = "" := by
    intro h0
    rw [h0, show normalize "" = none from by decide] at hn
    exact Option.noConfusion hn
  have hcc : (initEngine fs0).1.category_cache = m := by
    simp [initEngine, hcache, load_cache_from_file]
  constructor
  · simp only [request, if_neg hhost, hn, hcc, hc, if_neg hcne, applyPolicy,
      if_pos hb]
  · intro hbp
    simp [initEngine, hbp]

/-- Witness for C5: a domain pre-cached as `Social Media` with the policy
`Social Media -> blocked`. -/
theorem blocked_category_served_block_page_witness :
    request (fun _ => none) "facebook.com"
        (initEngine ⟨.ok [("facebook.com", "Social Media")],
          .ok [("Social Media", "blocked")], some "PAGE"⟩).1
        (initEngine ⟨.ok [("facebook.com", "Social Media")],
          .ok [("Social Media", "blocked")], some "PAGE"⟩).2 =
      some ⟨.blocked ⟨403,
          (initEngine ⟨.ok [("facebook.com", "Social Media")],
            .ok [("Social Media", "blocked")], some "PAGE"⟩).1.block_page_html,
          "text/html"⟩,
        (initEngine ⟨.ok [("facebook.com", "Social Media")],
          .ok [("Social Media", "blocked")], some "PAGE"⟩).1,
        (initEngine ⟨.ok [("facebook.com", "Social Media")],
          .ok [("Social Media", "blocked")], some "PAGE"⟩).2, false, false⟩ ∧
    ((⟨.ok [("facebook.com", "Social Media")],
        .ok [("Social Media", "blocked")], some "PAGE"⟩ : Files).block_page =
          none →
      (initEngine ⟨.ok [("facebook.com", "Social Media")],
        .ok [("Social Media", "blocked")],
        some "PAGE"⟩).1.block_page_html = fallbackBlockPage) :=
  blocked_category_served_block_page (fun _ => none)
    ⟨.ok [("facebook.com", "Social Media")],
      .ok [("Social Media", "blocked")], some "PAGE"⟩
    [("facebook.com", "Social Media")] "facebook.com" "facebook.com"
    "Social Media" (by decide) rfl (by decide) (by decide) (by decide)

/-- C6 counterexample: the classifier client enforces no vocabulary — the
raw output `"Gambling"`, outside the fixed label set and distinct from
`Unknown`, is returned unchanged, cached, and inserted into the policy
file. -/
theorem vocabulary_not_enforced :
    get_domain_category (some "Gambling") = "Gambling" ∧
    "Gambling" ∉ labelVocabulary ∧ ¬("Gambling" = "Unknown") ∧
    request (fun _ => some "Gambling") "foo.com" ⟨[], [], "P"⟩
        ⟨.ok [], .ok [], some "P"⟩ =
      some ⟨.passThrough, ⟨[("foo.com", "Gambling")], [], "P"⟩,
        ⟨.ok [("foo.com", "Gambling")], .ok [("Gambling", "allowed")],
          some "P"⟩, true, false⟩ := by
  refine ⟨by decide, by decide, by decide, by decide⟩

/-- C6 amended: the fixed vocabulary is requested only through the
prompt, not enforced by post-processing; the sole guarantee on a
non-failing call is the sanity bound — every label the classifier client
returns has length at most 50. -/
theorem returned_label_length_bounded (raw : String) :
    (get_domain_category (some raw)).length ≤ 50 := by
  simp only [get_domain_category, sanitizeOutput]
  by_cases h : (if ':' ∈ (pyStrip raw).data then
      pyStrip (lastAfterSplit ':' (pyStrip raw)) else pyStrip raw).length > 50
  · rw [if_pos h]; decide
  · rw [if_neg h]; omega

/-- C7: post-processing applied to raw output `raw` — trim, then (since a
colon is present) keep the substring after the last colon and trim again,
then (since the result exceeds 50 characters) substitute `"Unknown"` —
and this `Unknown` is cached for the domain and policy-defaulted to
`allowed` like any normal label. -/
theorem long_output_coerced_to_unknown
    (classify : String → Option String) (host domain raw : String)
    (e : Engine) (fs : Files) (pols : PolicyMap)
    (hn : normalize host = some domain)
    (hmiss : dictGet e.category_cache domain = none)
    (hraw : classify domain = some raw)
    (hcolon : ':' ∈ (pyStrip raw).data)
    (hlong : 50 < (pyStrip (lastAfterSplit ':' (pyStrip raw))).length)
    (hpols : fs.categories = .ok pols)
    (hnew : dictHasKey pols "Unknown" = false) :
    get_domain_category (classify domain) = "Unknown" ∧
    ∃ o, request classify host e fs = some o ∧
      dictGet o.engine.category_cache domain = some "Unknown" ∧
      o.files.categories = .ok (pols ++ [("Unknown", "allowed")]) := by
  have hhost : ¬host = "" := by
    intro h0
    rw [h0, show normalize "" = none from by decide] at hn
    exact Option.noConfusion hn
  have hgc : get_domain_category (classify domain) = "Unknown" := by
    rw [hraw]
    simp only [get_domain_category, sanitizeOutput, if_pos hcolon]
    rw [if_pos hlong]
  refine ⟨hgc, ?_⟩
  simp only [request, if_neg hhost, hn, hmiss, classifyAndUpdate, hgc]
  rw [if_neg (show ¬("Unknown" : String) = "" from by decide)]
  simp only [readPolicyFile, hpols]
  rw [if_neg (by rw [hnew]; exact Bool.false_ne_true)]
  rw [if_pos (show ("Unknown" : String) ≠ "Error (Gemini API)" from by decide)]
  refine ⟨_, rfl, ?_, ?_⟩
  · simp only [applyPolicy_engine]
    exact dictGet_dictSet_self _ _ _
  · simp only [applyPolicy_files]

/-- Witness for C7: a 68-character post-colon explanation. -/
theorem long_output_coerced_to_unknown_witness :
    get_domain_category ((fun _ : String => some
        "Category: Suspicious-because-of-xyz-very-long-explanation-exceeding-threshold")
        "foo.com") = "Unknown" ∧
    ∃ o, request (fun _ => some
        "Category: Suspicious-because-of-xyz-very-long-explanation-exceeding-threshold")
        "foo.com" ⟨[], [], "P"⟩ ⟨.ok [], .ok [], some "P"⟩ = some o ∧
      dictGet o.engine.category_cache "foo.com" = some "Unknown" ∧
      o.files.categories = .ok ([] ++ [("Unknown", "allowed")]) :=
  long_output_coerced_to_unknown
    (fun _ => some
      "Category: Suspicious-because-of-xyz-very-long-explanation-exceeding-threshold")
    "foo.com" "foo.com"
    "Category: Suspicious-because-of-xyz-very-long-explanation-exceeding-threshold"
    ⟨[], [], "P"⟩ ⟨.ok [], .ok [], some "P"⟩ []
    (by decide) rfl rfl (by decide) (by decide) rfl rfl

/-- C3 counterexample: the label `"Error (Gemini API)"` is successfully
classified (non-empty, so it is cached and carried to the policy check),
yet the `{label: allowed}` entry is NOT written to the persisted policy
file — `categories.json` stays empty. -/
theorem error_label_not_persisted :
    get_domain_category (some "Error (Gemini API)") = "Error (Gemini API)" ∧
    request (fun _ => some "Error (Gemini API)") "foo.com" ⟨[], [], "P"⟩
        ⟨.ok [], .ok [], some "P"⟩ =
      some ⟨.passThrough,
        ⟨[("foo.com", "Error (Gemini API)")], [], "P"⟩,
        ⟨.ok [("foo.com", "Error (Gemini API)")], .ok [], some "P"⟩,
        true, false⟩ := by
  refine ⟨by decide, by decide⟩

/-- C3 amended: for every successfully classified label `L` OTHER THAN
the reserved string `"Error (Gemini API)"` that is not yet a key of the
policy file, the request appends `{L: allowed}` to the persisted policy
mapping; reloading the persisted file then yields an Allow decision for
`L` (it is not in the reloaded blocked set), and when the in-memory
snapshot matches the pre-request file the request's own verdict is
pass-through. -/
theorem new_label_policy_defaulted
    (classify : String → Option String) (host domain L : String)
    (e : Engine) (fs : Files) (pols : PolicyMap)
    (hn : normalize host = some domain)
    (hmiss : dictGet e.category_cache domain = none)
    (hL : get_domain_category (classify domain) = L)
    (hL0 : ¬L = "") (hLerr : L ≠ "Error (Gemini API)")
    (hpols : fs.categories = .ok pols)
    (hnew : dictHasKey pols L = false) :
    ∃ o, request classify host e fs = some o ∧
      o.files.categories = .ok (pols ++ [(L, "allowed")]) ∧
      L ∉ (load_blocked_categories o.files.categories).1 ∧
      (e.blocked_categories = (load_blocked_categories fs.categories).1 →
        o.verdict = .passThrough) := by
  have hhost : ¬host = "" := by
    intro h0
    rw [h0, show normalize "" = none from by decide] at hn
    exact Option.noConfusion hn
  simp only [request, if_neg hhost, hn, hmiss, classifyAndUpdate, hL]
  rw [if_neg hL0]
  simp only [readPolicyFile, hpols]
  rw [if_neg (by rw [hnew]; exact Bool.false_ne_true)]
  rw [if_pos hLerr]
  refine ⟨_, rfl, ?_, ?_, ?_⟩
  · simp only [applyPolicy_files]
  · simp only [applyPolicy_files]
    rw [blocked_append_allowed]
    exact not_mem_blocked_of_not_key pols L hnew
  · intro hsnap
    apply applyPolicy_verdict_passThrough
    show L ∉ e.blocked_categories
    rw [hsnap]
    exact not_mem_blocked_of_not_key pols L hnew

/-- Witness for C3 (amended) at the fresh label `"Gambling"`. -/
theorem new_label_policy_defaulted_witness :
    ∃ o, request (fun _ => some "Gambling") "foo.com" ⟨[], [], "P"⟩
        ⟨.ok [], .ok [], some "P"⟩ = some o ∧
      o.files.categories = .ok ([] ++ [("Gambling", "allowed")]) ∧
      "Gambling" ∉ (load_blocked_categories o.files.categories).1 ∧
      ((⟨[], [], "P"⟩ : Engine).blocked_categories =
          (load_blocked_categories (⟨.ok [], .ok [], some "P"⟩ : Files).categories).1 →
        o.verdict = .passThrough) :=
  new_label_policy_defaulted (fun _ => some "Gambling") "foo.com" "foo.com"
    "Gambling" ⟨[], [], "P"⟩ ⟨.ok [], .ok [], some "P"⟩ []
    (by decide) rfl rfl (by decide) (by decide) rfl rfl

/-- C4: the first successful classification of a domain stores the
returned label in the category cache, and across any sequence of later
requests the classifier is never called again for that domain — the
trace starting with the first request makes exactly one classifier call
for it, and the cached label survives to the end of the trace. -/
theorem classify_once_per_domain
    (classify : String → Option String) (host : String)
    (hosts : List String) (domain : String) (e : Engine) (fs : Files)
    (hn : normalize host = some domain)
    (hmiss : dictGet e.category_cache domain = none)
    (hok : ¬get_domain_category (classify domain) = "")
    (hfile : fs.categories ≠ .corrupt) :
    ∃ e' fs', runTrace classify domain (host :: hosts) e fs =
        some (e', fs', 1) ∧
      dictGet e'.category_cache domain =
        some (get_domain_category (classify domain)) := by
  have hhost : ¬host = "" := by
    intro h0
    rw [h0, show normalize "" = none from by decide] at hn
    exact Option.noConfusion hn
  obtain ⟨o₀, ho₀, hcache₀, hfile₀, hcall₀⟩ :=
    classifyAndUpdate_success classify domain e fs hok hfile
  have hreq : request classify host e fs = some o₀ := by
    simp only [request, if_neg hhost, hn, hmiss]
    exact ho₀
  have hc₀ : dictGet o₀.engine.category_cache domain =
      some (get_domain_category (classify domain)) := by
    rw [hcache₀]
    exact dictGet_dictSet_self _ _ _
  obtain ⟨e', fs', htr, he'⟩ :=
    runTrace_no_calls classify domain _ hok hosts o₀.engine o₀.files hc₀ hfile₀
  refine ⟨e', fs', ?_, he'⟩
  simp only [runTrace, hreq, htr]
  rw [if_pos ⟨hcall₀, hn⟩]

/-- Witness for C4: two later requests for the same domain plus one for
another domain, after a first classification of `"foo.com"`. -/
theorem classify_once_per_domain_witness :
    ∃ e' fs', runTrace (fun _ => some "News") "foo.com"
        ("foo.com" :: ["foo.com", "bar.com", "foo.com"]) ⟨[], [], "P"⟩
        ⟨.ok [], .ok [], some "P"⟩ = some (e', fs', 1) ∧
      dictGet e'.category_cache "foo.com" =
        some (get_domain_category ((fun _ : String => some "News") "foo.com")) :=
  classify_once_per_domain (fun _ => some "News") "foo.com"
    ["foo.com", "bar.com", "foo.com"] "foo.com" ⟨[], [], "P"⟩
    ⟨.ok [], .ok [], some "P"⟩ (by decide) rfl (by decide)
    (by exact fun hcon => JsonFile.noConfusion hcon)

/-- On the miss path, the startup snapshot of blocked categories and the
block page are untouched, and the blocked set recorded in the policy
file is unchanged (only `"allowed"` entries are ever appended). -/
theorem classifyAndUpdate_frame
    (classify : String → Option String) (d : String) (e : Engine)
    (fs : Files) (o : ReqOutcome)
    (h : classifyAndUpdate classify d e fs = some o) :
    o.engine.blocked_categories = e.blocked_categories ∧
    o.engine.block_page_html = e.block_page_html ∧
    (load_blocked_categories o.files.categories).1 =
      (load_blocked_categories fs.categories).1 := by
  unfold classifyAndUpdate at h
  by_cases hcat : get_domain_category (classify d) = ""
  · rw [if_pos hcat] at h
    obtain rfl := Option.some.inj h
    exact ⟨rfl, rfl, rfl⟩
  · rw [if_neg hcat] at h
    cases hfs : fs.categories with
    | corrupt =>
      rw [hfs] at h
      exact Option.noConfusion h
    | missing =>
      rw [hfs] at h
      dsimp only [readPolicyFile] at h
      obtain rfl := Option.some.inj h
      refine ⟨by rw [applyPolicy_engine], by rw [applyPolicy_engine], ?_⟩
      rw [applyPolicy_files]
      dsimp only
      split
      · rfl
      · split
        · show (load_blocked_categories
              (.ok ([] ++ [(get_domain_category (classify d), "allowed")]))).1 =
            (load_blocked_categories .missing).1
          rw [blocked_append_allowed]
          rfl
        · rfl
    | ok pols =>
      rw [hfs] at h
      dsimp only [readPolicyFile] at h
      obtain rfl := Option.some.inj h
      refine ⟨by rw [applyPolicy_engine], by rw [applyPolicy_engine], ?_⟩
      rw [applyPolicy_files]
      dsimp only
      split
      · rfl
      · split
        · show (load_blocked_categories
              (.ok (pols ++ [(get_domain_category (classify d), "allowed")]))).1 =
            (load_blocked_categories (.ok pols)).1
          exact blocked_append_allowed pols _
        · rfl

/-- On the miss path, the verdict does not depend on the contents of the
policy file read mid-request. -/
theorem classifyAndUpdate_verdict_indep
    (classify : String → Option String) (d : String) (e : Engine)
    (fs fs₂ : Files) (o o₂ : ReqOutcome)
    (h1 : classifyAndUpdate classify d e fs = some o)
    (h2 : classifyAndUpdate classify d e fs₂ = some o₂) :
    o.verdict = o₂.verdict := by
  unfold classifyAndUpdate at h1 h2
  by_cases hcat : get_domain_category (classify d) = ""
  · rw [if_pos hcat] at h1 h2
    obtain rfl := Option.some.inj h1
    obtain rfl := Option.some.inj h2
    rfl
  · rw [if_neg hcat] at h1 h2
    cases hp1 : readPolicyFile fs.categories with
    | none => rw [hp1] at h1; exact Option.noConfusion h1
    | some pols =>
      cases hp2 : readPolicyFile fs₂.categories with
      | none => rw [hp2] at h2; exact Option.noConfusion h2
      | some pols₂ =>
        rw [hp1] at h1
        rw [hp2] at h2
        obtain rfl := Option.some.inj h1
        obtain rfl := Option.some.inj h2
        exact applyPolicy_verdict_indep _ _ _ _ _ _ _ _

/-- C10: the in-memory blocked-categories snapshot (and block page) are
never modified by request handling, the blocked set recorded in
`categories.json` is never extended by it (only `"allowed"` entries are
appended), and the verdict of a request is independent of the contents
of `categories.json` at request time — so allow/block is determined
solely by the startup snapshot, and later edits to the file take effect
only after a restart. -/
theorem blocked_set_startup_snapshot
    (classify : String → Option String) (host : String) (e : Engine)
    (fs fs₂ : Files) (o o₂ : ReqOutcome)
    (h1 : request classify host e fs = some o)
    (h2 : request classify host e fs₂ = some o₂) :
    o.engine.blocked_categories = e.blocked_categories ∧
    o.engine.block_page_html = e.block_page_html ∧
    (load_blocked_categories o.files.categories).1 =
      (load_blocked_categories fs.categories).1 ∧
    o.verdict = o₂.verdict := by
  unfold request at h1 h2
  by_cases hh : host = ""
  · rw [if_pos hh] at h1 h2
    obtain rfl := Option.some.inj h1
    obtain rfl := Option.some.inj h2
    exact ⟨rfl, rfl, rfl, rfl⟩
  · rw [if_neg hh] at h1 h2
    cases hn : normalize host with
    | none =>
      rw [hn] at h1 h2
      obtain rfl := Option.some.inj h1
      obtain rfl := Option.some.inj h2
      exact ⟨rfl, rfl, rfl, rfl⟩
    | some d =>
      rw [hn] at h1 h2
      dsimp only at h1 h2
      cases hcd : dictGet e.category_cache d with
      | none =>
        rw [hcd] at h1 h2
        dsimp only at h1 h2
        obtain ⟨f1, f2, f3⟩ := classifyAndUpdate_frame classify d e fs o h1
        exact ⟨f1, f2, f3,
          classifyAndUpdate_verdict_indep classify d e fs fs₂ o o₂ h1 h2⟩
      | some c =>
        rw [hcd] at h1 h2
        dsimp only at h1 h2
        by_cases hc : c = ""
        · rw [if_pos hc] at h1 h2
          obtain ⟨f1, f2, f3⟩ := classifyAndUpdate_frame classify d e fs o h1
          exact ⟨f1, f2, f3,
            classifyAndUpdate_verdict_indep classify d e fs fs₂ o o₂ h1 h2⟩
        · rw [if_neg hc] at h1 h2
          obtain rfl := Option.some.inj h1
          obtain rfl := Option.some.inj h2
          exact ⟨by rw [applyPolicy_engine], by rw [applyPolicy_engine],
            by rw [applyPolicy_files],
            applyPolicy_verdict_indep _ _ _ _ _ _ _ _⟩

/-- Witness for C10: the same request against the startup policy file and
against an edited policy file that now blocks `News`. -/
theorem blocked_set_startup_snapshot_witness :
    ((⟨.passThrough, ⟨[("foo.com", "News")], [], "P"⟩,
        ⟨.ok [("foo.com", "News")], .ok [], some "P"⟩, false,
        false⟩ : ReqOutcome).engine.blocked_categories =
      (⟨[("foo.com", "News")], [], "P"⟩ : Engine).blocked_categories) ∧
    ((⟨.passThrough, ⟨[("foo.com", "News")], [], "P"⟩,
        ⟨.ok [("foo.com", "News")], .ok [], some "P"⟩, false,
        false⟩ : ReqOutcome).engine.block_page_html =
      (⟨[("foo.com", "News")], [], "P"⟩ : Engine).block_page_html) ∧
    ((load_blocked_categories (⟨.passThrough, ⟨[("foo.com", "News")], [], "P"⟩,
        ⟨.ok [("foo.com", "News")], .ok [], some "P"⟩, false,
        false⟩ : ReqOutcome).files.categories).1 =
      (load_blocked_categories
        (⟨.ok [("foo.com", "News")], .ok [], some "P"⟩ : Files).categories).1) ∧
    ((⟨.passThrough, ⟨[("foo.com", "News")], [], "P"⟩,
        ⟨.ok [("foo.com", "News")], .ok [], some "P"⟩, false,
        false⟩ : ReqOutcome).verdict =
      (⟨.passThrough, ⟨[("foo.com", "News")], [], "P"⟩,
        ⟨.ok [("foo.com", "News")], .ok [("News", "blocked")], some "P"⟩,
        false, false⟩ : ReqOutcome).verdict) :=
  blocked_set_startup_snapshot (fun _ => none) "foo.com"
    ⟨[("foo.com", "News")], [], "P"⟩
    ⟨.ok [("foo.com", "News")], .ok [], some "P"⟩
    ⟨.ok [("foo.com", "News")], .ok [("News", "blocked")], some "P"⟩
    ⟨.passThrough, ⟨[("foo.com", "News")], [], "P"⟩,
      ⟨.ok [("foo.com", "News")], .ok [], some "P"⟩, false, false⟩
    ⟨.passThrough, ⟨[("foo.com", "News")], [], "P"⟩,
      ⟨.ok [("foo.com", "News")], .ok [("News", "blocked")], some "P"⟩,
      false, false⟩
    (by decide) (by decide)

/-- Witness for C8 at the host `"."` (whose labels extract to empty
domain and empty suffix, so the join is falsy). -/
theorem nodomain_fail_open_witness :
    (request (fun _ => some "News") "." ⟨[], [], "P"⟩
        ⟨.ok [], .ok [], some "P"⟩ =
      some ⟨.passThrough, ⟨[], [], "P"⟩, ⟨.ok [], .ok [], some "P"⟩,
        false, true⟩) ∧
    normalize "co.uk" = some ".co.uk" ∧
    normalize "localhost" = some "localhost" :=
  nodomain_fail_open (fun _ => some "News") "." ⟨[], [], "P"⟩
    ⟨.ok [], .ok [], some "P"⟩ (by decide) (by decide)

end SWG
